import Mathlib

/-!
Shallow embedding of the detection post-processing pipeline of the
YOLOv3-Tiny ZYNQ driver (files `nms.rs`, `postprocess.rs`,
`detection_result.rs`, `layer_group.rs`, `yolov3_tiny.rs`).

Modelling conventions:
* Rust `f32` values are modelled as exact rationals (`ℚ`). Every claim
  settled here is about the algebraic/control-flow behaviour of the code,
  not about rounding; the concrete counterexample inputs use small dyadic
  rationals and integers, which `f32` represents exactly.
* Rust `u32`/`usize` indices are `ℕ`; `i16` buffer elements are `ℤ`
  (values are only moved, never overflowed, by the modelled code).
* Out-of-range reads of `f32` slices, which panic in Rust, are modelled as
  reading `0` (`List.getD _ _ 0`); no settled claim depends on that case.
  The two panics that claims do depend on (the class-bucket indexing in
  `nms_process` and the fallible `DetectionData` constructor) are modelled
  explicitly with `Option`.
* `f32::exp`, which is transcendental and has no exact rational
  counterpart, is passed to `get_anchor_box`/`post_process` as an abstract
  parameter `fexp : ℚ → ℚ`; the theorems about `post_process` hold for
  every such parameter.
-/

namespace YoloZynq

/-- Rust struct `DetectionData` (detection_result.rs).  The Rust field
`class : u8` is called `cls` here (`class` is a Lean keyword); it is a `ℕ`
produced by a `% 256` wrap where the code casts with `as u8`. -/
structure DetectionData where
  cls : ℕ
  x1 : ℚ
  y1 : ℚ
  x2 : ℚ
  y2 : ℚ
  confidence : ℚ
deriving DecidableEq

/-- Placeholder detection used as the (never hit) default of in-bounds
list reads. -/
def defaultDet : DetectionData := ⟨0, 0, 0, 0, 0, 0⟩

/-- Rust `iou` (nms.rs lines 12-47), translated branch by branch.
`x1` is the larger of the two left edges, `x2` the smaller; `xx1` the
smaller of the two right edges, `xx2` the larger (same for `y`).
`area1` is the intersection box, `area2` the box enclosing both. -/
def iou (a b : DetectionData) : ℚ :=
  let p := if a.x1 < b.x1 then (b.x1, a.x1) else (a.x1, b.x1)
  let x1 := p.1
  let x2 := p.2
  let q := if a.y1 < b.y1 then (b.y1, a.y1) else (a.y1, b.y1)
  let y1 := q.1
  let y2 := q.2
  let r := if b.x2 < a.x2 then (b.x2, a.x2) else (a.x2, b.x2)
  let xx1 := r.1
  let xx2 := r.2
  let s := if b.y2 < a.y2 then (b.y2, a.y2) else (a.y2, b.y2)
  let yy1 := s.1
  let yy2 := s.2
  if x1 ≥ xx1 ∨ y1 ≥ yy1 then 0
  else
    let area1 := (xx1 - x1) * (yy1 - y1)
    let area2 := (xx2 - x2) * (yy2 - y2)
    area1 / area2

/-- Modelled from the spec: the intersection-over-union formula the spec
states for `iou`, namely
`IoU(a,b) = max(0, intersection_area) / (area_a + area_b - intersection_area)`. -/
def spec_iou (a b : DetectionData) : ℚ :=
  let interArea :=
    max 0 (min a.x2 b.x2 - max a.x1 b.x1) * max 0 (min a.y2 b.y2 - max a.y1 b.y1)
  let areaA := (a.x2 - a.x1) * (a.y2 - a.y1)
  let areaB := (b.x2 - b.x1) * (b.y2 - b.y1)
  interArea / (areaA + areaB - interArea)

/-- One insertion step of the stable descending-by-confidence sort.
Equal confidences keep the earlier element first, exactly as Rust's stable
`sort_by` with comparator `(-a.confidence).partial_cmp(&(-b.confidence))`
(nms.rs line 59) does. -/
def insertDesc (d : DetectionData) : List DetectionData → List DetectionData
  | [] => [d]
  | b :: t => if b.confidence ≤ d.confidence then d :: b :: t else b :: insertDesc d t

/-- Stable sort, descending by confidence (nms.rs line 59).  A stable sort
for a given total preorder is extensionally unique, so this insertion sort
agrees with Rust's stable `sort_by`. -/
def sortDesc : List DetectionData → List DetectionData
  | [] => []
  | a :: t => insertDesc a (sortDesc t)

/-- Inner loop of Rust `nms` (nms.rs lines 62-66):
`for it in ((ib+1)..len).rev()`, and on overlap the code calls
`sorted_bb.pop()`, i.e. removes the LAST element (modelled by
`List.dropLast`), not the element at `it`. -/
def nmsInner (thr : ℚ) (ib : ℕ) : ℕ → List DetectionData → List DetectionData
  | 0, l => l
  | it + 1, l =>
    if it + 1 ≤ ib then l
    else
      nmsInner thr ib it
        (if thr < iou (l.getD ib defaultDet) (l.getD (it + 1) defaultDet)
         then l.dropLast else l)

/-- Outer loop of Rust `nms` (nms.rs lines 61-70): `for ib in 0..len`
with an early `break` when the list length has shrunk to `ib + 1`.
`fuel` is the number of remaining outer iterations (the original length). -/
def nmsLoop (thr : ℚ) : ℕ → ℕ → List DetectionData → List DetectionData
  | 0, _, l => l
  | fuel + 1, ib, l =>
    let l' := nmsInner thr ib (l.length - 1) l
    if l'.length = ib + 1 then l' else nmsLoop thr fuel (ib + 1) l'

/-- Rust `nms` (nms.rs lines 57-72). -/
def nms (bb : List DetectionData) (nms_threshold : ℚ) : List DetectionData :=
  let sorted := sortDesc bb
  nmsLoop nms_threshold sorted.length 0 sorted

/-- Rust `nms_process` (nms.rs lines 84-105).  The Rust code pushes each
filtered detection into `cls[detection.class as usize]`, which panics when
`class ≥ cls_num`; that panic is modelled as `none`.  Bucket `c` receives
the filtered detections of class `c` in input order, which is exactly
`filter` of the filtered list. -/
def nms_process (bb : List DetectionData) (cls_num : ℕ)
    (obj_threshold nms_threshold : ℚ) : Option (List DetectionData) :=
  let filtered := bb.filter fun d =>
    decide (obj_threshold < d.confidence ∧ d.confidence ≤ 1)
  if filtered.all (fun d => decide (d.cls < cls_num)) then
    some (((List.range cls_num).map fun c =>
      nms (filtered.filter fun d => decide (d.cls = c)) nms_threshold).flatten)
  else none

/-- Rust `fix2float` (postprocess.rs lines 15-17): `input as f32 / 2f32.powi(8)`.
Both the `i16 → f32` cast and the division by `2^8` are exact in `f32`,
so the rational model is exact. -/
def fix2float (input : ℤ) : ℚ :=
  (input : ℚ) / 2 ^ 8

/-- Rust `ch_reorder` (postprocess.rs lines 27-37): three nested push
loops `i < grid_num*grid_num`, `j < 8`, `k < 32` pushing
`arr[(grid_num*grid_num*32)*j + 32*i + k]`, rendered as the list those
pushes produce, in push order. -/
def ch_reorder (arr : List ℚ) (grid_num : ℕ) : List ℚ :=
  (List.range (grid_num * grid_num)).flatMap fun i =>
    (List.range 8).flatMap fun j =>
      (List.range 32).map fun k =>
        arr.getD ((grid_num * grid_num * 32) * j + 32 * i + k) 0

/-- Box/objectness half of Rust `ch_reshape` (postprocess.rs lines 61-66).
The Rust loop writes `reshape[i + index]` for `i = 18*c` and
`index < 18`, each slot exactly once in increasing position order, with
value `reorder_arr[c*256 + 85*(index/6) + index%6 + (1 if index%6 == 5 else 0)]`;
rendered as the list of those values in position order. -/
def ch_reshape_box (reorder_arr : List ℚ) (grid_num : ℕ) : List ℚ :=
  (List.range (grid_num * grid_num)).flatMap fun c =>
    (List.range 18).map fun index =>
      reorder_arr.getD
        (c * 256 + 85 * (index / 6) + index % 6 + (if index % 6 = 5 then 1 else 0)) 0

/-- Class-score half of Rust `ch_reshape` (postprocess.rs lines 53-59).
The Rust loop writes `class[c*3*cls_num + j*cls_num + k] =
reorder_arr[c*256 + 85*j + 5 + k]` for `j < 3`, `k < cls_num`, each slot
exactly once in increasing position order. -/
def ch_reshape_cls (reorder_arr : List ℚ) (grid_num cls_num : ℕ) : List ℚ :=
  (List.range (grid_num * grid_num)).flatMap fun c =>
    (List.range 3).flatMap fun j =>
      (List.range cls_num).map fun k =>
        reorder_arr.getD (c * 256 + 85 * j + 5 + k) 0

/-- Rust `ch_reshape` (postprocess.rs lines 48-69), returning the pair
`(reshape, class)`. -/
def ch_reshape (reorder_arr : List ℚ) (grid_num cls_num : ℕ) : List ℚ × List ℚ :=
  (ch_reshape_box reorder_arr grid_num, ch_reshape_cls reorder_arr grid_num cls_num)

/-- Modelled from the spec: the recombination direction of the claimed
inverse property, "reshape(reorder(x)) recombined with the extracted class
array reconstructs x".  It rebuilds an array in the pre-reorder layout
(`raw[cells*32*j' + 32*cell + k']`), taking box/objectness channels
`85*j + m`, `m < 5`, from the 18-wide array, class channels
`85*j + 5 + k`, `k < cls_num`, from the class array, and `0` where
neither array carries the channel. -/
def spec_recombine (resh cl : List ℚ) (grid_num cls_num : ℕ) : List ℚ :=
  (List.range 8).flatMap fun jr =>
    (List.range (grid_num * grid_num)).flatMap fun i =>
      (List.range 32).map fun kr =>
        let ch := 32 * jr + kr
        let j := ch / 85
        let m := ch % 85
        if j < 3 then
          if m < 5 then resh.getD (i * 18 + 6 * j + m) 0
          else if m < 5 + cls_num then cl.getD (i * (3 * cls_num) + j * cls_num + (m - 5)) 0
          else 0
        else 0

/-- Anchor boxes of the 13x13 scale (postprocess.rs line 176). -/
def anchor_box_13 : List (ℚ × ℚ) := [(81, 82), (135, 169), (344, 319)]

/-- Anchor boxes of the 26x26 scale (postprocess.rs line 177). -/
def anchor_box_26 : List (ℚ × ℚ) := [(23, 27), (37, 58), (81, 82)]

/-- Rust `get_anchor_box` (postprocess.rs lines 77-95).  The Rust loop
walks cells `c` with `w_cnt = c % grid_num`, `h_cnt = c / grid_num` and
rewrites, for each anchor `j`, the slots `18*c + 6*j + m`: `m = 0,1` are
scaled/offset by the grid width, `m = 2,3` are `anchor * exp(old)`
(with `exp` abstracted as `fexp`), `m = 4,5` are left unchanged.
Rendered as an index-directed `mapIdx` over the buffer. -/
def get_anchor_box (resh : List ℚ) (grid_num : ℕ) (anchor_box : List (ℚ × ℚ))
    (fexp : ℚ → ℚ) : List ℚ :=
  let gw : ℚ := 416 / (grid_num : ℚ)
  resh.mapIdx fun p v =>
    if p < grid_num * grid_num * 18 then
      let c := p / 18
      let m := p % 18 % 6
      let j := p % 18 / 6
      if m = 0 then gw * ((c % grid_num : ℕ) : ℚ) + gw * v
      else if m = 1 then gw * ((c / grid_num : ℕ) : ℚ) + gw * v
      else if m = 2 then (anchor_box.getD j (0, 0)).1 * fexp v
      else if m = 3 then (anchor_box.getD j (0, 0)).2 * fexp v
      else v
    else v

/-- Rust `DetectionData::new_from_yolo` (detection_result.rs lines 32-58).
`Result` is modelled as `Option` (the error payload is only a message). -/
def new_from_yolo (yolo_result : List ℚ) (cls_id : ℕ) : Option DetectionData :=
  let cx := yolo_result.getD 0 0
  let cy := yolo_result.getD 1 0
  let cw := yolo_result.getD 2 0
  let ch := yolo_result.getD 3 0
  let nms_box : DetectionData :=
    ⟨cls_id, cx - cw / 2, cy - ch / 2, cx + cw / 2, cy + ch / 2, yolo_result.getD 4 0⟩
  if (0 ≤ nms_box.x1 ∧ nms_box.x1 ≤ 416) ∧ (0 ≤ nms_box.y1 ∧ nms_box.y1 ≤ 416)
      ∧ (0 ≤ nms_box.x2 ∧ nms_box.x2 ≤ 416) ∧ (0 ≤ nms_box.y2 ∧ nms_box.y2 ≤ 416)
  then some nms_box
  else none

/-- The fold step of Rust's `Iterator::max_by` (used in `get_cls_id`):
`max_by(x, y) = if compare(x, y) == Greater then x else y`, so equal keys
prefer the LATER element. -/
def maxStep (f : ℕ → ℚ) (acc : Option ℕ) (i : ℕ) : Option ℕ :=
  match acc with
  | none => some i
  | some a => if f i < f a then some a else some i

/-- Rust's `Iterator::max_by` over a list of indices keyed by `f`:
a left fold of `maxStep` starting from `none`. -/
def maxByLast (f : ℕ → ℚ) (l : List ℕ) : Option ℕ :=
  l.foldl (maxStep f) none

/-- Rust `get_cls_id` (postprocess.rs lines 106-112): `max_by` over the
index range `[idx*cls_num, idx*cls_num + cls_num)` keyed by the score,
minus the base, cast `as u8` (hence `% 256`).  The `unwrap` panic on an
empty range (`cls_num = 0`) is totalised with the base index as default,
which yields class `0`; no settled claim depends on that case. -/
def get_cls_id (cls_concat : List ℚ) (idx cls_num : ℕ) : ℕ :=
  let ccnt := idx * cls_num
  (((maxByLast (fun a => cls_concat.getD a 0) (List.range' ccnt cls_num)).getD ccnt)
    - ccnt) % 256

/-- Rust `get_objs` (postprocess.rs lines 123-131): the first
`(13*13 + 26*26)*18` entries of `grid_concat` are cut into chunks of
`18 / ANCHOR_BOX_NUM = 6`, and each chunk is passed to `new_from_yolo`
with the class id of its slot; `flat_map` keeps the successful ones. -/
def get_objs (grid_concat cls_concat : List ℚ) (cls_num : ℕ) : List DetectionData :=
  (List.range ((13 * 13 + 26 * 26) * 3)).flatMap fun idx =>
    (new_from_yolo ((grid_concat.drop (6 * idx)).take 6)
      (get_cls_id cls_concat idx cls_num)).toList

/-- Rust `post_process` (postprocess.rs lines 147-193), with `f32::exp`
abstracted as `fexp`.  Returns `none` exactly when the modelled
class-bucket panic of `nms_process` fires. -/
def post_process (fexp : ℚ → ℚ) (yolo_out_0 yolo_out_1 : List ℤ) (cls_num : ℕ)
    (obj_threshold nms_threshold : ℚ) : Option (List DetectionData) :=
  let arr13 := yolo_out_0.map fix2float
  let arr26 := yolo_out_1.map fix2float
  let reorder13 := ch_reorder arr13 13
  let reorder26 := ch_reorder arr26 26
  let r13 := ch_reshape reorder13 13 cls_num
  let r26 := ch_reshape reorder26 26 cls_num
  let reshape13 := get_anchor_box r13.1 13 anchor_box_13 fexp
  let reshape26 := get_anchor_box r26.1 26 anchor_box_26 fexp
  let grid_concat := reshape13 ++ reshape26
  let cls_concat := r13.2 ++ r26.2
  let nms_boxes := get_objs grid_concat cls_concat cls_num
  nms_process nms_boxes cls_num obj_threshold nms_threshold

/-- Decidable form of the coordinate invariant of `new_from_yolo`:
all four corners lie in `[0, 416]`. -/
def detInRange (d : DetectionData) : Bool :=
  decide ((0 ≤ d.x1 ∧ d.x1 ≤ 416) ∧ (0 ≤ d.y1 ∧ d.y1 ≤ 416)
    ∧ (0 ≤ d.x2 ∧ d.x2 ≤ 416) ∧ (0 ≤ d.y2 ∧ d.y2 ≤ 416))

/-- Rust enum `Activation` (layer_group.rs). -/
inductive Activation where
  | Linear
  | Leaky
deriving DecidableEq

/-- Rust enum `PostProcess` (layer_group.rs). -/
inductive PostProcessKind where
  | None
  | MaxPool
  | Yolo
  | Upsample
deriving DecidableEq

/-- Rust const `CH_FOLD_FACTOR` (layer_group.rs line 65). -/
def CH_FOLD_FACTOR : ℕ := 4

/-- Rust struct `LayerGroup` (layer_group.rs lines 22-63).  `u32` fields
are `ℕ`, `Vec<i16>` buffers are `List ℤ`. -/
structure LayerGroup where
  input_width : ℕ
  input_height : ℕ
  input_ch : ℕ
  input_fold_ch : ℕ
  input_size : ℕ
  input_fold_factor : ℕ
  acc_size : ℕ
  output_width : ℕ
  output_height : ℕ
  output_ch : ℕ
  output_fold_ch : ℕ
  output_size : ℕ
  output_fold_factor : ℕ
  pooling_stride : ℕ
  inputs : Option (List ℤ)
  outputs : Option (List ℤ)
  weights : Option (List ℤ)
  biases : Option (List ℤ)
  activate_type : Activation
  post_process_type : PostProcessKind
  conv_disable : Bool
deriving DecidableEq

/-- Rust `LayerGroup::new` (layer_group.rs lines 86-125).  Note
`(ch + 3) / 4` is the Rust integer division, i.e. the ceiling of `ch / 4`. -/
def LayerGroup.new (input_w input_h input_ch input_fold_factor
    output_w output_h output_ch output_fold_factor : ℕ) (conv_disable : Bool)
    (activate_type : Activation) (post_process_type : PostProcessKind)
    (pooling_stride : ℕ) : LayerGroup :=
  let input_fold_ch := (input_ch + 3) / 4
  let output_fold_ch := (output_ch + 3) / 4
  { input_width := input_w
    input_height := input_h
    input_ch := input_ch
    input_fold_ch := input_fold_ch
    input_size := input_w * input_h * input_fold_ch * CH_FOLD_FACTOR
    input_fold_factor := input_fold_factor
    output_width := output_w
    output_height := output_h
    output_ch := output_ch
    output_fold_ch := output_fold_ch
    output_size := output_w * output_h * output_fold_ch * CH_FOLD_FACTOR
    output_fold_factor := output_fold_factor
    acc_size := input_w * input_h * output_fold_ch * CH_FOLD_FACTOR
    conv_disable := conv_disable
    activate_type := activate_type
    post_process_type := post_process_type
    pooling_stride := pooling_stride
    inputs := none
    outputs := none
    weights := none
    biases := none }

/-- Rust `LayerGroup::set_outputs` (layer_group.rs lines 187-203): when a
buffer already exists the data is appended to its end; when none exists,
offset `0` installs the data directly and a non-zero offset installs
`output_size * off` zeros followed by the data. -/
def LayerGroup.set_outputs (lg : LayerGroup) (off : ℕ) (output : List ℤ) : LayerGroup :=
  match lg.outputs with
  | some o => { lg with outputs := some (o ++ output) }
  | none =>
    if off = 0 then { lg with outputs := some output }
    else { lg with outputs := some (List.replicate (lg.output_size * off) 0 ++ output) }

/-- The 14 fixed layer-group configurations pushed by `YoloV3Tiny::init`
(yolov3_tiny.rs lines 70-83), in push order. -/
def init_layer_groups : List LayerGroup :=
  [LayerGroup.new 416 416 3 1 208 208 16 1 false .Leaky .MaxPool 2,
   LayerGroup.new 208 208 16 1 104 104 32 1 false .Leaky .MaxPool 2,
   LayerGroup.new 104 104 32 1 52 52 32 2 false .Leaky .MaxPool 2,
   LayerGroup.new 52 52 32 2 26 26 32 4 false .Leaky .MaxPool 2,
   LayerGroup.new 26 26 32 4 26 26 32 8 false .Leaky .None 2,
   LayerGroup.new 26 26 32 1 13 13 32 8 true .Linear .MaxPool 2,
   LayerGroup.new 13 13 32 8 13 13 32 16 false .Leaky .MaxPool 1,
   LayerGroup.new 13 13 32 16 13 13 32 32 false .Leaky .None 2,
   LayerGroup.new 13 13 32 32 13 13 32 8 false .Leaky .None 2,
   LayerGroup.new 13 13 32 8 13 13 32 16 false .Leaky .None 2,
   LayerGroup.new 13 13 32 16 13 13 32 8 false .Linear .Yolo 2,
   LayerGroup.new 13 13 32 8 26 26 32 4 false .Leaky .Upsample 2,
   LayerGroup.new 26 26 32 12 26 26 32 8 false .Leaky .None 2,
   LayerGroup.new 26 26 32 8 26 26 32 8 false .Linear .Yolo 2]

/-- Concrete detections used by the NMS counterexamples: `boxA` and
`boxB` coincide spatially (IoU 1), `boxC` is disjoint from both (IoU 0);
confidences are distinct dyadic rationals, all in `(1/2, 1]`. -/
def boxA : DetectionData := ⟨0, 0, 0, 10, 10, 7/8⟩

/-- Same box as `boxA` with lower confidence. -/
def boxB : DetectionData := ⟨0, 0, 0, 10, 10, 3/4⟩

/-- A box disjoint from `boxA`/`boxB`, lowest confidence. -/
def boxC : DetectionData := ⟨0, 100, 100, 110, 110, 5/8⟩

/-- Concrete 256-element input used by the reorder/reshape counterexample. -/
def xC6 : List ℚ := List.replicate 256 1

/-- A `LayerGroup` whose output buffer is already set (to `[5]`), used as
the prior state of the `set_outputs` counterexample. -/
def lgC4 : LayerGroup :=
  { LayerGroup.new 2 1 1 1 2 1 1 1 false .Linear .None 1 with outputs := some [5] }

/-! ## Helper lemmas -/

/-- The swap of `iou` selecting the larger coordinate first. -/
lemma ite_pair_max (u v : ℚ) : (if u < v then (v, u) else (u, v)) = (max u v, min u v) := by
  rcases lt_or_le u v with h | h
  · rw [if_pos h, max_eq_right h.le, min_eq_left h.le]
  · rw [if_neg (not_lt.2 h), max_eq_left h, min_eq_right h]

/-- The swap of `iou` selecting the smaller coordinate first. -/
lemma ite_pair_min (u v : ℚ) : (if v < u then (v, u) else (u, v)) = (min u v, max u v) := by
  rcases lt_or_le v u with h | h
  · rw [if_pos h, min_eq_right h.le, max_eq_left h.le]
  · rw [if_neg (not_lt.2 h), min_eq_left h, max_eq_right h]

/-- Closed form of `iou`: intersection area over the area of the box
enclosing both inputs, and `0` when there is no positive overlap. -/
lemma iou_eq_closed (a b : DetectionData) :
    iou a b =
      if max a.x1 b.x1 ≥ min a.x2 b.x2 ∨ max a.y1 b.y1 ≥ min a.y2 b.y2 then 0
      else ((min a.x2 b.x2 - max a.x1 b.x1) * (min a.y2 b.y2 - max a.y1 b.y1))
          / ((max a.x2 b.x2 - min a.x1 b.x1) * (max a.y2 b.y2 - min a.y1 b.y1)) := by
  simp only [iou, ite_pair_max, ite_pair_min]

/-! ## Claims -/

/-- Claim C1, counterexample: for the overlapping boxes
`(0,0)-(2,2)` and `(1,1)-(3,3)` the code's `iou` returns `1/9`
(intersection over the enclosing box) while the spec's
`max(0, intersection) / (area_a + area_b - intersection)` formula
gives `1/7`, so the claimed formula is false. -/
theorem claim1_cex :
    iou ⟨0, 0, 0, 2, 2, 1⟩ ⟨0, 1, 1, 3, 3, 1⟩
      ≠ spec_iou ⟨0, 0, 0, 2, 2, 1⟩ ⟨0, 1, 1, 3, 3, 1⟩ := by
  norm_num [iou, spec_iou]

/-- Claim C1, amended: for every pair of detection boxes,
`iou(a,b)` equals the intersection area divided by the area of the
smallest box enclosing both (not by `area_a + area_b - intersection`),
with `0` when there is no positive overlap; it is symmetric and its
value always lies in `[0, 1]`. -/
theorem claim1_thm (a b : DetectionData) :
    (iou a b =
      if max a.x1 b.x1 ≥ min a.x2 b.x2 ∨ max a.y1 b.y1 ≥ min a.y2 b.y2 then 0
      else ((min a.x2 b.x2 - max a.x1 b.x1) * (min a.y2 b.y2 - max a.y1 b.y1))
          / ((max a.x2 b.x2 - min a.x1 b.x1) * (max a.y2 b.y2 - min a.y1 b.y1)))
    ∧ iou a b = iou b a ∧ 0 ≤ iou a b ∧ iou a b ≤ 1 := by
  refine ⟨iou_eq_closed a b, ?_, ?_, ?_⟩
  · rw [iou_eq_closed a b, iou_eq_closed b a, max_comm b.x1 a.x1, min_comm b.x2 a.x2,
      max_comm b.y1 a.y1, min_comm b.y2 a.y2, max_comm b.x2 a.x2, min_comm b.x1 a.x1,
      max_comm b.y2 a.y2, min_comm b.y1 a.y1]
  · rw [iou_eq_closed]
    split_ifs with h
    · exact le_rfl
    · push_neg at h
      have k1 : min a.x1 b.x1 ≤ max a.x1 b.x1 := min_le_max
      have k2 : min a.y1 b.y1 ≤ max a.y1 b.y1 := min_le_max
      have k3 : min a.x2 b.x2 ≤ max a.x2 b.x2 := min_le_max
      have k4 : min a.y2 b.y2 ≤ max a.y2 b.y2 := min_le_max
      exact div_nonneg
        (le_of_lt (mul_pos (by linarith [h.1]) (by linarith [h.2])))
        (le_of_lt (mul_pos (by linarith [h.1]) (by linarith [h.2])))
  · rw [iou_eq_closed]
    split_ifs with h
    · norm_num
    · push_neg at h
      have k1 : min a.x1 b.x1 ≤ max a.x1 b.x1 := min_le_max
      have k2 : min a.y1 b.y1 ≤ max a.y1 b.y1 := min_le_max
      have k3 : min a.x2 b.x2 ≤ max a.x2 b.x2 := min_le_max
      have k4 : min a.y2 b.y2 ≤ max a.y2 b.y2 := min_le_max
      rw [div_le_one (mul_pos (by linarith [h.1]) (by linarith [h.2]))]
      exact mul_le_mul (by linarith [h.1]) (by linarith [h.2])
        (by linarith [h.2]) (by linarith [h.1])

/-- Claim C2: on the same-class input `[boxA, boxB, boxC]` (confidences
`7/8 > 3/4 > 5/8`, all in `(1/10, 1]`), where `boxB` coincides with the
kept top box `boxA` (IoU `1 > 1/2`) and `boxC` is disjoint from it
(IoU `0 ≤ 1/2`), `nms_process` returns `[boxA, boxB]`: the inner loop
pops the LAST element instead of the overlapping one, so it discards the
non-overlapping `boxC` and retains the overlapping `boxB` — contradicting
the claimed greedy suppression (which would return `[boxA, boxC]`). -/
theorem claim2_thm :
    nms_process [boxA, boxB, boxC] 1 (1/10) (1/2) = some [boxA, boxB]
    ∧ 1/2 < iou boxA boxB ∧ iou boxA boxC ≤ 1/2 := by
  refine ⟨?_, ?_, ?_⟩
  · norm_num [nms_process, nms, sortDesc, insertDesc, nmsLoop, nmsInner, iou,
      boxA, boxB, boxC, defaultDet, List.filter, List.all, List.range, List.flatten,
      List.getD, List.get?]
  · norm_num [iou, boxA, boxB]
  · norm_num [iou, boxA, boxC]

/-- Claim C3, counterexample: with two equal class scores `[1, 1]`,
`get_cls_id` returns index `1`, not the claimed lowest index `0`
(Rust's `max_by` keeps the LAST of equally-maximal elements). -/
theorem claim3_cex :
    ([(1 : ℚ), 1].getD 0 0 = [(1 : ℚ), 1].getD 1 0)
    ∧ get_cls_id [1, 1] 0 2 = 1 := by decide

/-- Claim C4, counterexample: with the output buffer already holding
`[5]` and `output_fold_idx = 0`, `set_outputs` appends, so the data `[7]`
does NOT end up at offset `output_size * 0 = 0`; the claim's
"for every prior state" placement is false. -/
theorem claim4_cex :
    (((lgC4.set_outputs 0 [7]).outputs.getD []).drop (lgC4.output_size * 0)).take 1
      ≠ [7] := by decide

/-- Claim C4, amended: when the output buffer is unset, offset `0`
installs the data directly and a non-zero `output_fold_idx` installs a
zero prefix of length `output_size * output_fold_idx` followed by the
data (so the data sits at that offset); when a buffer is already present,
the data is appended at its end regardless of `output_fold_idx` — which
places it at offset `output_size * output_fold_idx` exactly when the
existing length equals `output_size * output_fold_idx`. -/
theorem claim4_thm (lg : LayerGroup) (off : ℕ) (data : List ℤ) :
    (lg.outputs = none → off = 0 → (lg.set_outputs off data).outputs = some data)
    ∧ (lg.outputs = none → off ≠ 0 →
        (lg.set_outputs off data).outputs
          = some (List.replicate (lg.output_size * off) 0 ++ data)
        ∧ (List.replicate (lg.output_size * off) 0 ++ data).drop (lg.output_size * off)
            = data)
    ∧ (∀ o, lg.outputs = some o →
        (lg.set_outputs off data).outputs = some (o ++ data)
        ∧ (o.length = lg.output_size * off →
            (o ++ data).drop (lg.output_size * off) = data)) := by
  refine ⟨?_, ?_, ?_⟩
  · intro hnone hoff
    simp [LayerGroup.set_outputs, hnone, hoff]
  · intro hnone hoff
    constructor
    · simp [LayerGroup.set_outputs, hnone, hoff]
    · exact List.drop_left' (List.length_replicate _ _)
  · intro o ho
    constructor
    · simp [LayerGroup.set_outputs, ho]
    · intro hlen
      exact List.drop_left' hlen

/-- Witness for claim C4's amended theorem: instantiated at an unset
buffer and fold index `2`. -/
theorem claim4_thm_witness :
    ((LayerGroup.new 2 1 1 1 2 1 1 1 false .Linear .None 1).set_outputs 2 [7]).outputs
      = some (List.replicate
          ((LayerGroup.new 2 1 1 1 2 1 1 1 false .Linear .None 1).output_size * 2) 0
          ++ [7]) :=
  ((claim4_thm (LayerGroup.new 2 1 1 1 2 1 1 1 false .Linear .None 1) 2 [7]).2.1
    (by decide) (by decide)).1

/-- Claim C5: the two same-class detections `boxA`, `boxB` have IoU `1`
above the threshold `1/2` and both pass the confidence filter, yet
`nms_process [boxA, boxB, boxC]` retains BOTH of them; moreover applying
`nms_process` to that output `[boxA, boxB]` gives `[boxA]`, so
`nms_process` is not idempotent. -/
theorem claim5_thm :
    nms_process [boxA, boxB, boxC] 1 (1/10) (1/2) = some [boxA, boxB]
    ∧ nms_process [boxA, boxB] 1 (1/10) (1/2) = some [boxA]
    ∧ 1/2 < iou boxA boxB := by
  refine ⟨?_, ?_, ?_⟩
  · norm_num [nms_process, nms, sortDesc, insertDesc, nmsLoop, nmsInner, iou,
      boxA, boxB, boxC, defaultDet, List.filter, List.all, List.range, List.flatten,
      List.getD, List.get?]
  · norm_num [nms_process, nms, sortDesc, insertDesc, nmsLoop, nmsInner, iou,
      boxA, boxB, defaultDet, List.filter, List.all, List.range, List.flatten,
      List.getD, List.get?]
  · norm_num [iou, boxA, boxB]

/-- Claim C7: `fix2float` divides its (sign-preserving, exactly
representable) input by `256`; it is additive, homogeneous and odd, and
maps `256` to `1` and `0` to `0`. -/
theorem claim7_thm :
    (∀ v : ℤ, fix2float v = (v : ℚ) / 256)
    ∧ (∀ x y : ℤ, fix2float (x + y) = fix2float x + fix2float y)
    ∧ (∀ (c : ℤ) (x : ℤ), fix2float (c * x) = (c : ℚ) * fix2float x)
    ∧ (∀ x : ℤ, fix2float (-x) = -fix2float x)
    ∧ fix2float 256 = 1 ∧ fix2float 0 = 0 := by
  refine ⟨fun v => by norm_num [fix2float], fun x y => ?_, fun c x => ?_, fun x => ?_,
    by norm_num [fix2float], by norm_num [fix2float]⟩
  · simp only [fix2float]
    push_cast
    ring
  · simp only [fix2float]
    push_cast
    ring
  · simp only [fix2float]
    push_cast
    ring

/-- Claim C8: for each of the 14 `LayerGroup` configurations pushed by
`YoloV3Tiny::init`, `input_size = input_w * input_h * ⌈input_ch/4⌉ * 4`,
`output_size = output_w * output_h * ⌈output_ch/4⌉ * 4` and
`acc_size = input_w * input_h * ⌈output_ch/4⌉ * 4`, where the ceiling
`⌈ch/4⌉` is the Rust integer division `(ch + 3) / 4`. -/
theorem claim8_thm :
    ∀ lg ∈ init_layer_groups,
      lg.input_size = lg.input_width * lg.input_height * ((lg.input_ch + 3) / 4) * 4
      ∧ lg.output_size = lg.output_width * lg.output_height * ((lg.output_ch + 3) / 4) * 4
      ∧ lg.acc_size = lg.input_width * lg.input_height * ((lg.output_ch + 3) / 4) * 4 := by
  decide

/-- Witness for claim C8: the first configuration, `416×416×3 → 208×208×16`. -/
theorem claim8_thm_witness :
    (LayerGroup.new 416 416 3 1 208 208 16 1 false .Leaky .MaxPool 2).input_size
      = 416 * 416 * ((3 + 3) / 4) * 4 :=
  (claim8_thm (LayerGroup.new 416 416 3 1 208 208 16 1 false .Leaky .MaxPool 2)
    (by decide)).1

/-- Invariant of the `maxStep` fold: folding over the ascending index
range `[s, s + n)` starting from `some a` yields the last maximizer among
`a` and the range (later indices win ties). -/
lemma maxStep_foldl_range' (f : ℕ → ℚ) :
    ∀ (n s a : ℕ),
      ∃ m, (List.range' s n).foldl (maxStep f) (some a) = some m
        ∧ (m = a ∨ (s ≤ m ∧ m < s + n))
        ∧ f a ≤ f m
        ∧ (∀ i, s ≤ i → i < s + n → f i ≤ f m)
        ∧ (∀ i, s ≤ i → i < s + n → m < i → f i < f m) := by
  intro n
  induction n with
  | zero =>
    intro s a
    exact ⟨a, rfl, Or.inl rfl, le_rfl, fun i h1 h2 => by omega, fun i h1 h2 => by omega⟩
  | succ n ih =>
    intro s a
    rw [List.range'_succ, List.foldl_cons]
    by_cases hc : f s < f a
    · rw [show maxStep f (some a) s = some a by simp [maxStep, hc]]
      obtain ⟨m, hm, hmem, hfa, hall, hlast⟩ := ih (s + 1) a
      refine ⟨m, hm, ?_, hfa, ?_, ?_⟩
      · rcases hmem with h | h
        · exact Or.inl h
        · exact Or.inr ⟨by omega, by omega⟩
      · intro i h1 h2
        rcases Nat.eq_or_lt_of_le h1 with rfl | h1'
        · exact hc.le.trans hfa
        · exact hall i (by omega) (by omega)
      · intro i h1 h2 hmi
        rcases Nat.eq_or_lt_of_le h1 with rfl | h1'
        · exact lt_of_lt_of_le hc hfa
        · exact hlast i (by omega) (by omega) hmi
    · rw [show maxStep f (some a) s = some s by simp [maxStep, hc]]
      obtain ⟨m, hm, hmem, hfs, hall, hlast⟩ := ih (s + 1) s
      push_neg at hc
      refine ⟨m, hm, ?_, hc.trans hfs, ?_, ?_⟩
      · rcases hmem with rfl | h
        · exact Or.inr ⟨le_rfl, by omega⟩
        · exact Or.inr ⟨by omega, by omega⟩
      · intro i h1 h2
        rcases Nat.eq_or_lt_of_le h1 with rfl | h1'
        · exact hfs
        · exact hall i (by omega) (by omega)
      · intro i h1 h2 hmi
        rcases Nat.eq_or_lt_of_le h1 with rfl | h1'
        · exact absurd hmi (by rcases hmem with rfl | h <;> omega)
        · exact hlast i (by omega) (by omega) hmi

/-- Claim C3, amended: for `0 < cls_num ≤ 256`, `get_cls_id` returns an
argmax of the `cls_num` class scores of the slot, but when several scores
are equal to the maximum the HIGHEST index is chosen (Rust's `max_by`
keeps the last of equally-maximal elements), not the lowest: every score
strictly after the returned index is strictly below the returned score. -/
theorem claim3_thm (cls_concat : List ℚ) (idx cls_num : ℕ)
    (h0 : 0 < cls_num) (h256 : cls_num ≤ 256) :
    get_cls_id cls_concat idx cls_num < cls_num
    ∧ (∀ j, j < cls_num →
        cls_concat.getD (idx * cls_num + j) 0
          ≤ cls_concat.getD (idx * cls_num + get_cls_id cls_concat idx cls_num) 0)
    ∧ (∀ j, j < cls_num → get_cls_id cls_concat idx cls_num < j →
        cls_concat.getD (idx * cls_num + j) 0
          < cls_concat.getD (idx * cls_num + get_cls_id cls_concat idx cls_num) 0) := by
  obtain ⟨k, rfl⟩ : ∃ k, cls_num = k + 1 := ⟨cls_num - 1, by omega⟩
  have key : ∃ m,
      maxByLast (fun a => cls_concat.getD a 0)
          (List.range' (idx * (k + 1)) (k + 1)) = some m
      ∧ idx * (k + 1) ≤ m ∧ m < idx * (k + 1) + (k + 1)
      ∧ (∀ i, idx * (k + 1) ≤ i → i < idx * (k + 1) + (k + 1) →
          cls_concat.getD i 0 ≤ cls_concat.getD m 0)
      ∧ (∀ i, idx * (k + 1) ≤ i → i < idx * (k + 1) + (k + 1) → m < i →
          cls_concat.getD i 0 < cls_concat.getD m 0) := by
    obtain ⟨m, hm, hmem, hfc, hall, hlast⟩ :=
      maxStep_foldl_range' (fun a => cls_concat.getD a 0) k
        (idx * (k + 1) + 1) (idx * (k + 1))
    refine ⟨m, ?_, ?_, ?_, ?_, ?_⟩
    · rw [maxByLast, List.range'_succ, List.foldl_cons]
      exact hm
    · rcases hmem with rfl | ⟨h1, _⟩ <;> omega
    · rcases hmem with rfl | ⟨_, h2⟩ <;> omega
    · intro i h1 h2
      rcases Nat.eq_or_lt_of_le h1 with rfl | h1'
      · exact hfc
      · exact hall i (by omega) (by omega)
    · intro i h1 h2 hmi
      rcases Nat.eq_or_lt_of_le h1 with rfl | h1'
      · exact absurd hmi (by rcases hmem with rfl | h <;> omega)
      · exact hlast i (by omega) (by omega) hmi
  obtain ⟨m, hmv, hlb, hub, hall, hlast⟩ := key
  have hgc : get_cls_id cls_concat idx (k + 1) = m - idx * (k + 1) := by
    simp only [get_cls_id, hmv, Option.getD_some]
    exact Nat.mod_eq_of_lt (by omega)
  have hidx : idx * (k + 1) + (m - idx * (k + 1)) = m := by omega
  refine ⟨?_, ?_, ?_⟩
  · rw [hgc]; omega
  · intro j hj
    rw [hgc, hidx]
    exact hall (idx * (k + 1) + j) (by omega) (by omega)
  · intro j hj hgt
    rw [hgc] at hgt
    rw [hgc, hidx]
    exact hlast (idx * (k + 1) + j) (by omega) (by omega) (by omega)

/-- Witness for claim C3's amended theorem: scores `[3, 5, 4]`, one slot
of three classes; the returned class id is below `3`. -/
theorem claim3_thm_witness :
    0 < 3 ∧ 3 ≤ 256 ∧ get_cls_id [(3 : ℚ), 5, 4] 0 3 < 3 :=
  ⟨by decide, by decide, (claim3_thm [(3 : ℚ), 5, 4] 0 3 (by decide) (by decide)).1⟩

/-- Membership through one insertion step of the stable sort. -/
lemma mem_insertDesc (d a : DetectionData) (l : List DetectionData) :
    d ∈ insertDesc a l ↔ d = a ∨ d ∈ l := by
  induction l with
  | nil => simp [insertDesc]
  | cons b t ih =>
    simp only [insertDesc]
    split_ifs with h
    · simp [List.mem_cons]
    · rw [List.mem_cons, ih, List.mem_cons]
      tauto

/-- The stable sort produces no new elements. -/
lemma mem_sortDesc {d : DetectionData} (l : List DetectionData)
    (h : d ∈ sortDesc l) : d ∈ l := by
  induction l with
  | nil => simp [sortDesc] at h
  | cons a t ih =>
    simp only [sortDesc] at h
    rw [mem_insertDesc] at h
    rcases h with rfl | h
    · exact List.mem_cons_self _ _
    · exact List.mem_cons_of_mem _ (ih h)

/-- The inner `nms` loop only pops elements, so its result is a sublist
of its input. -/
lemma nmsInner_sublist (thr : ℚ) (ib : ℕ) :
    ∀ (it : ℕ) (l : List DetectionData), (nmsInner thr ib it l).Sublist l := by
  intro it
  induction it with
  | zero => intro l; exact List.Sublist.refl l
  | succ it ih =>
    intro l
    simp only [nmsInner]
    split_ifs with h1 h2
    · exact List.Sublist.refl l
    · exact (ih l.dropLast).trans (List.dropLast_sublist l)
    · exact ih l

/-- The outer `nms` loop only pops elements, so its result is a sublist
of its input. -/
lemma nmsLoop_sublist (thr : ℚ) :
    ∀ (fuel ib : ℕ) (l : List DetectionData), (nmsLoop thr fuel ib l).Sublist l := by
  intro fuel
  induction fuel with
  | zero => intro ib l; exact List.Sublist.refl l
  | succ fuel ih =>
    intro ib l
    simp only [nmsLoop]
    split_ifs with h
    · exact nmsInner_sublist thr ib (l.length - 1) l
    · exact (ih (ib + 1) _).trans (nmsInner_sublist thr ib (l.length - 1) l)

/-- Every detection returned by `nms` was in its input. -/
lemma nms_mem {d : DetectionData} {bb : List DetectionData} {thr : ℚ}
    (h : d ∈ nms bb thr) : d ∈ bb := by
  simp only [nms] at h
  exact mem_sortDesc bb (List.Sublist.mem h (nmsLoop_sublist thr _ 0 (sortDesc bb)))

/-- Every detection returned by `nms_process` was in its input. -/
lemma nms_process_mem {bb out : List DetectionData} {n : ℕ} {o t : ℚ}
    {d : DetectionData} (h : nms_process bb n o t = some out) (hd : d ∈ out) :
    d ∈ bb := by
  simp only [nms_process] at h
  split_ifs at h with hall
  · injection h with h'
    rw [← h'] at hd
    rw [List.mem_flatten] at hd
    obtain ⟨l', hl', hdl⟩ := hd
    rw [List.mem_map] at hl'
    obtain ⟨c, _, rfl⟩ := hl'
    exact (List.mem_filter.1 (List.mem_filter.1 (nms_mem hdl)).1).1

/-- A successful `new_from_yolo` always returns an in-range box. -/
lemma new_from_yolo_inRange {yr : List ℚ} {cid : ℕ} {d : DetectionData}
    (h : new_from_yolo yr cid = some d) : detInRange d = true := by
  simp only [new_from_yolo] at h
  split_ifs at h with hc
  · injection h with h'
    subst h'
    simpa only [detInRange, decide_eq_true_eq] using hc

/-- Every detection produced by `get_objs` is in range. -/
lemma get_objs_inRange {gc cc : List ℚ} {n : ℕ} {d : DetectionData}
    (h : d ∈ get_objs gc cc n) : detInRange d = true := by
  simp only [get_objs, List.mem_flatMap] at h
  obtain ⟨idx, _, hd⟩ := h
  rw [Option.mem_toList] at hd
  exact new_from_yolo_inRange (Option.mem_def.mp hd)

/-- Composition: whatever `nms_process` keeps of a `get_objs` result is
in range. -/
lemma nms_process_all_inRange (gc cc : List ℚ) (cls_num : ℕ) (o t : ℚ) :
    Option.all (fun l => l.all detInRange)
      (nms_process (get_objs gc cc cls_num) cls_num o t) = true := by
  cases hnp : nms_process (get_objs gc cc cls_num) cls_num o t with
  | none => rfl
  | some out =>
    simp only [Option.all]
    rw [List.all_eq_true]
    intro d hd
    exact get_objs_inRange (nms_process_mem hnp hd)

/-- Claim C9: `new_from_yolo` succeeds exactly when all four assembled
corners `cx ∓ cw/2`, `cy ∓ ch/2` lie in `[0, 416]` (otherwise the
candidate is dropped non-fatally), and consequently every detection list
that `post_process` returns contains only boxes with all four
coordinates in `[0, 416]` — for every abstract `exp` and every input. -/
theorem claim9_thm :
    (∀ (yr : List ℚ) (cid : ℕ),
      (new_from_yolo yr cid).isSome = true ↔
        ((0 ≤ yr.getD 0 0 - yr.getD 2 0 / 2 ∧ yr.getD 0 0 - yr.getD 2 0 / 2 ≤ 416)
          ∧ (0 ≤ yr.getD 1 0 - yr.getD 3 0 / 2 ∧ yr.getD 1 0 - yr.getD 3 0 / 2 ≤ 416)
          ∧ (0 ≤ yr.getD 0 0 + yr.getD 2 0 / 2 ∧ yr.getD 0 0 + yr.getD 2 0 / 2 ≤ 416)
          ∧ (0 ≤ yr.getD 1 0 + yr.getD 3 0 / 2 ∧ yr.getD 1 0 + yr.getD 3 0 / 2 ≤ 416)))
    ∧ (∀ (fexp : ℚ → ℚ) (y0 y1 : List ℤ) (cls_num : ℕ) (obj_thr nms_thr : ℚ),
        Option.all (fun l => l.all detInRange)
          (post_process fexp y0 y1 cls_num obj_thr nms_thr) = true) := by
  constructor
  · intro yr cid
    simp only [new_from_yolo]
    split_ifs with h
    · simpa using h
    · simpa using h
  · intro fexp y0 y1 cls_num obj_thr nms_thr
    simp only [post_process]
    exact nms_process_all_inRange _ _ _ _ _

/-- Claim C10: `nms_process` succeeds whenever every detection passing
the confidence filter has class id below `cls_num`, and the claim's
failure case is real: a single detection of class `5` with confidence
`3/4 ∈ (1/2, 1]` under `cls_num = 1` makes the class-bucket index go out
of bounds, so the call panics (modelled: returns `none`) instead of
returning a result. -/
theorem claim10_thm :
    (∀ (bb : List DetectionData) (cls_num : ℕ) (obj_thr nms_thr : ℚ),
      (∀ d ∈ bb, obj_thr < d.confidence → d.confidence ≤ 1 → d.cls < cls_num) →
      (nms_process bb cls_num obj_thr nms_thr).isSome = true)
    ∧ nms_process [⟨5, 0, 0, 1, 1, 3/4⟩] 1 (1/2) (1/2) = none
    ∧ (1/2 : ℚ) < 3/4 ∧ (3/4 : ℚ) ≤ 1 ∧ (1 : ℕ) ≤ 5 := by
  refine ⟨?_, ?_, by norm_num, by norm_num, by norm_num⟩
  · intro bb cls_num obj_thr nms_thr h
    simp only [nms_process]
    have hall : (bb.filter fun d =>
        decide (obj_thr < d.confidence ∧ d.confidence ≤ 1)).all
          (fun d => decide (d.cls < cls_num)) = true := by
      rw [List.all_eq_true]
      intro d hd
      have h1 := List.mem_filter.1 hd
      have h2 := of_decide_eq_true h1.2
      simp only [decide_eq_true_eq]
      exact h d h1.1 h2.1 h2.2
    rw [if_pos hall]
    rfl
  · norm_num [nms_process, List.filter, List.all]

/-- Witness for claim C10's totality direction: a single in-range
detection of class `0` under `cls_num = 1`. -/
theorem claim10_thm_witness :
    (nms_process [boxC] 1 (1/2) (1/2)).isSome = true :=
  claim10_thm.1 [boxC] 1 (1/2) (1/2) (by
    intro d hd h1 h2
    simp only [List.mem_singleton] at hd
    subst hd
    norm_num [boxC])

/-- Length of a `flatMap` over `List.range` whose blocks all have
length `L`. -/
lemma length_flatMap_range {β : Type*} (f : ℕ → List β) (L : ℕ) :
    ∀ n, (∀ j, j < n → (f j).length = L) →
      ((List.range n).flatMap f).length = n * L := by
  intro n
  induction n with
  | zero => intro _; simp
  | succ n ih =>
    intro hL
    rw [List.range_succ, List.flatMap_append, List.length_append,
      ih (fun j hj => hL j (by omega))]
    have h1 : ([n].flatMap f).length = L := by
      simp [List.flatMap_cons, List.flatMap_nil, hL n (by omega)]
    rw [h1]
    ring

/-- Element access in a `flatMap` over `List.range` with constant block
length `L`: position `i * L + r` reads position `r` of block `i`. -/
lemma getD_flatMap_range {β : Type*} (f : ℕ → List β) (L : ℕ) :
    ∀ (n i r : ℕ) (d : β), (∀ j, j < n → (f j).length = L) → i < n → r < L →
      ((List.range n).flatMap f).getD (i * L + r) d = (f i).getD r d := by
  intro n
  induction n with
  | zero => intro i r d _ hi _; omega
  | succ n ih =>
    intro i r d hL hi hr
    rw [List.range_succ, List.flatMap_append]
    rcases Nat.lt_or_ge i n with h | h
    · rw [List.getD_append]
      · exact ih i r d (fun j hj => hL j (by omega)) h hr
      · rw [length_flatMap_range f L n (fun j hj => hL j (by omega))]
        calc i * L + r < i * L + L := by omega
          _ = (i + 1) * L := by ring
          _ ≤ n * L := Nat.mul_le_mul_right L (by omega)
    · have hieq : i = n := by omega
      subst hieq
      rw [List.getD_append_right]
      · rw [length_flatMap_range f L i (fun j hj => hL j (by omega))]
        have h2 : i * L + r - i * L = r := by omega
        rw [h2]
        simp [List.flatMap_cons, List.flatMap_nil]
      · rw [length_flatMap_range f L i (fun j hj => hL j (by omega))]
        omega

/-- Element access in a `map` over `List.range`. -/
lemma getD_map_range {β : Type*} (g : ℕ → β) (n i : ℕ) (d : β) (hi : i < n) :
    ((List.range n).map g).getD i d = g i := by
  have h : i < ((List.range n).map g).length := by simpa using hi
  rw [List.getD_eq_getElem _ _ h, List.getElem_map, List.getElem_range]

/-- Closed form of `ch_reorder`: position `p` of the reordered array
reads raw position `(g*g*32) * (p % 256 / 32) + 32 * (p / 256) + p % 32`. -/
lemma ch_reorder_getD (arr : List ℚ) (g p : ℕ) (hp : p < g * g * 256) :
    (ch_reorder arr g).getD p 0
      = arr.getD ((g * g * 32) * (p % 256 / 32) + 32 * (p / 256) + p % 32) 0 := by
  simp only [ch_reorder]
  have hinner : ∀ i, i < g * g → ((List.range 8).flatMap fun j =>
      (List.range 32).map fun k =>
        arr.getD ((g * g * 32) * j + 32 * i + k) 0).length = 256 := by
    intro i _
    rw [length_flatMap_range _ 32 8 (fun j _ => by simp)]
  have hdecomp : p = (p / 256) * 256 + p % 256 := by omega
  conv_lhs => rw [hdecomp]
  rw [getD_flatMap_range _ 256 (g * g) (p / 256) (p % 256) 0 hinner (by omega) (by omega)]
  have hdecomp2 : p % 256 = (p % 256 / 32) * 32 + p % 32 := by omega
  conv_lhs => rw [hdecomp2]
  rw [getD_flatMap_range _ 32 8 (p % 256 / 32) (p % 32) 0 (fun j _ => by simp)
    (by omega) (by omega)]
  rw [getD_map_range _ 32 (p % 32) 0 (by omega)]

/-- Closed form of the box half of `ch_reshape`. -/
lemma ch_reshape_box_getD (r : List ℚ) (g p : ℕ) (hp : p < g * g * 18) :
    (ch_reshape_box r g).getD p 0
      = r.getD ((p / 18) * 256 + 85 * (p % 18 / 6) + p % 18 % 6
          + (if p % 18 % 6 = 5 then 1 else 0)) 0 := by
  simp only [ch_reshape_box]
  have hdecomp : p = (p / 18) * 18 + p % 18 := by omega
  conv_lhs => rw [hdecomp]
  rw [getD_flatMap_range _ 18 (g * g) (p / 18) (p % 18) 0 (fun c _ => by simp)
    (by omega) (by omega)]
  rw [getD_map_range _ 18 (p % 18) 0 (by omega)]

/-- Closed form of the class half of `ch_reshape` at `cls_num = 80`. -/
lemma ch_reshape_cls_getD80 (r : List ℚ) (g p : ℕ) (hp : p < g * g * 240) :
    (ch_reshape_cls r g 80).getD p 0
      = r.getD ((p / 240) * 256 + 85 * (p % 240 / 80) + 5 + p % 80) 0 := by
  simp only [ch_reshape_cls]
  have hinner : ∀ c, c < g * g → ((List.range 3).flatMap fun j =>
      (List.range 80).map fun k =>
        r.getD (c * 256 + 85 * j + 5 + k) 0).length = 240 := by
    intro c _
    rw [length_flatMap_range _ 80 3 (fun j _ => by simp)]
  have hdecomp : p = (p / 240) * 240 + p % 240 := by omega
  conv_lhs => rw [hdecomp]
  rw [getD_flatMap_range _ 240 (g * g) (p / 240) (p % 240) 0 hinner (by omega) (by omega)]
  have hdecomp2 : p % 240 = (p % 240 / 80) * 80 + p % 80 := by omega
  conv_lhs => rw [hdecomp2]
  rw [getD_flatMap_range _ 80 3 (p % 240 / 80) (p % 80) 0 (fun j _ => by simp)
    (by omega) (by omega)]
  rw [getD_map_range _ 80 (p % 80) 0 (by omega)]

/-- Claim C6, amended: channel reorder and reshape are inverses only up
to one lost channel per grid cell.  For `cls_num = 80`, recombining the
18-wide box/objectness array and the class-score array of
`ch_reshape(ch_reorder(x))` reconstructs `x` at every position whose
post-reorder channel `32*(q/(g*g*32)) + q%32` is below `255`; the 256th
channel of each cell is read by neither output and is lost (see the
counterexample). -/
theorem claim6_thm (x : List ℚ) (g q : ℕ) (hq : q < g * g * 256)
    (hch : 32 * (q / (g * g * 32)) + q % 32 < 255) :
    (spec_recombine (ch_reshape (ch_reorder x g) g 80).1
        (ch_reshape (ch_reorder x g) g 80).2 g 80).getD q 0 = x.getD q 0 := by
  simp only [ch_reshape]
  have hA : (0 : ℕ) < g * g * 32 := by omega
  set jr := q / (g * g * 32) with hjr_def
  set rem := q % (g * g * 32) with hrem_def
  have e0 : g * g * 32 * jr + rem = q := Nat.div_add_mod q (g * g * 32)
  have hrem_lt : rem < g * g * 32 := Nat.mod_lt q hA
  have hjr_lt : jr < 8 := by
    rw [hjr_def, Nat.div_lt_iff_lt_mul hA]
    calc q < g * g * 256 := hq
      _ = 8 * (g * g * 32) := by ring
  set i := rem / 32 with hi_def
  set kr := rem % 32 with hkr_def
  have e1 : rem = i * 32 + kr := by omega
  have hi_lt : i < g * g := by omega
  have hkr_lt : kr < 32 := by omega
  have e32 : q = 32 * (g * g * jr) + rem := by rw [← e0]; ring
  have hq32 : q % 32 = kr := by omega
  rw [hq32] at hch
  have e0' : q = jr * (g * g * 32) + rem := by
    rw [Nat.mul_comm jr (g * g * 32)]
    omega
  simp only [spec_recombine]
  conv_lhs => rw [e0']
  rw [getD_flatMap_range _ (g * g * 32) 8 jr rem 0
    (fun j' _ => by rw [length_flatMap_range _ 32 (g * g) (fun _ _ => by simp)])
    hjr_lt hrem_lt]
  conv_lhs => rw [e1]
  rw [getD_flatMap_range _ 32 (g * g) i kr 0 (fun _ _ => by simp) hi_lt hkr_lt]
  rw [getD_map_range _ 32 kr 0 hkr_lt]
  rw [if_pos (show (32 * jr + kr) / 85 < 3 by omega)]
  by_cases hm5 : (32 * jr + kr) % 85 < 5
  · rw [if_pos hm5]
    rw [ch_reshape_box_getD _ g _
      (show i * 18 + 6 * ((32 * jr + kr) / 85) + (32 * jr + kr) % 85 < g * g * 18 by omega)]
    rw [show (i * 18 + 6 * ((32 * jr + kr) / 85) + (32 * jr + kr) % 85) / 18 = i by omega]
    rw [show (i * 18 + 6 * ((32 * jr + kr) / 85) + (32 * jr + kr) % 85) % 18
        = 6 * ((32 * jr + kr) / 85) + (32 * jr + kr) % 85 by omega]
    rw [show (6 * ((32 * jr + kr) / 85) + (32 * jr + kr) % 85) / 6 = (32 * jr + kr) / 85 by omega]
    rw [show (6 * ((32 * jr + kr) / 85) + (32 * jr + kr) % 85) % 6 = (32 * jr + kr) % 85 by omega]
    rw [if_neg (show ¬(32 * jr + kr) % 85 = 5 by omega)]
    rw [ch_reorder_getD x g _
      (show i * 256 + 85 * ((32 * jr + kr) / 85) + (32 * jr + kr) % 85 + 0 < g * g * 256 by omega)]
    rw [show (i * 256 + 85 * ((32 * jr + kr) / 85) + (32 * jr + kr) % 85 + 0) % 256
        = 32 * jr + kr by omega]
    rw [show (i * 256 + 85 * ((32 * jr + kr) / 85) + (32 * jr + kr) % 85 + 0) / 256 = i by omega]
    rw [show (i * 256 + 85 * ((32 * jr + kr) / 85) + (32 * jr + kr) % 85 + 0) % 32 = kr by omega]
    rw [show (32 * jr + kr) / 32 = jr by omega]
    rw [show g * g * 32 * jr + 32 * i + kr = q by omega]
  · rw [if_neg hm5]
    rw [if_pos (show (32 * jr + kr) % 85 < 5 + 80 by omega)]
    rw [ch_reshape_cls_getD80 _ g _
      (show i * (3 * 80) + (32 * jr + kr) / 85 * 80 + ((32 * jr + kr) % 85 - 5) < g * g * 240
        by omega)]
    rw [show (i * (3 * 80) + (32 * jr + kr) / 85 * 80 + ((32 * jr + kr) % 85 - 5)) / 240 = i
        by omega]
    rw [show (i * (3 * 80) + (32 * jr + kr) / 85 * 80 + ((32 * jr + kr) % 85 - 5)) % 240
        = (32 * jr + kr) / 85 * 80 + ((32 * jr + kr) % 85 - 5) by omega]
    rw [show ((32 * jr + kr) / 85 * 80 + ((32 * jr + kr) % 85 - 5)) / 80 = (32 * jr + kr) / 85
        by omega]
    rw [show (i * (3 * 80) + (32 * jr + kr) / 85 * 80 + ((32 * jr + kr) % 85 - 5)) % 80
        = (32 * jr + kr) % 85 - 5 by omega]
    rw [show i * 256 + 85 * ((32 * jr + kr) / 85) + 5 + ((32 * jr + kr) % 85 - 5)
        = i * 256 + 85 * ((32 * jr + kr) / 85) + (32 * jr + kr) % 85 by omega]
    rw [ch_reorder_getD x g _
      (show i * 256 + 85 * ((32 * jr + kr) / 85) + (32 * jr + kr) % 85 < g * g * 256 by omega)]
    rw [show (i * 256 + 85 * ((32 * jr + kr) / 85) + (32 * jr + kr) % 85) % 256
        = 32 * jr + kr by omega]
    rw [show (i * 256 + 85 * ((32 * jr + kr) / 85) + (32 * jr + kr) % 85) / 256 = i by omega]
    rw [show (i * 256 + 85 * ((32 * jr + kr) / 85) + (32 * jr + kr) % 85) % 32 = kr by omega]
    rw [show (32 * jr + kr) / 32 = jr by omega]
    rw [show g * g * 32 * jr + 32 * i + kr = q by omega]
/-- Claim C6, counterexample: on the all-ones 256-element array at
`grid_num = 1`, the recombination of `ch_reshape(ch_reorder(x))` does not
reconstruct `x`: the last channel (position 255) of the cell comes back
as `0`, not `1`, because reshape reads channels `85j+0..85j+4`, `85j+6`
and the class extraction reads `85j+5..85j+84`, so channel `255` of each
cell is never read. -/
theorem claim6_cex :
    spec_recombine (ch_reshape (ch_reorder xC6 1) 1 80).1
      (ch_reshape (ch_reorder xC6 1) 1 80).2 1 80 ≠ xC6 := by
  intro h
  have h255 := congrArg (fun l => List.getD l 255 0) h
  simp only at h255
  have hL : (spec_recombine (ch_reshape (ch_reorder xC6 1) 1 80).1
      (ch_reshape (ch_reorder xC6 1) 1 80).2 1 80).getD 255 0 = 0 := by
    simp only [ch_reshape, spec_recombine]
    rw [show (255 : ℕ) = 7 * (1 * 1 * 32) + 31 by norm_num]
    rw [getD_flatMap_range _ (1 * 1 * 32) 8 7 31 0
      (fun j' _ => by rw [length_flatMap_range _ 32 (1 * 1) (fun _ _ => by simp)])
      (by norm_num) (by norm_num)]
    rw [show (31 : ℕ) = 0 * 32 + 31 by norm_num]
    rw [getD_flatMap_range _ 32 (1 * 1) 0 31 0 (fun _ _ => by simp)
      (by norm_num) (by norm_num)]
    rw [getD_map_range _ 32 31 0 (by norm_num)]
    norm_num
  have hR : xC6.getD 255 0 = 1 := by decide
  rw [hL, hR] at h255
  exact absurd h255 (by norm_num)

/-- Witness for claim C6's amended theorem: position `0` of the same
concrete array, whose post-reorder channel is `0 < 255`. -/
theorem claim6_thm_witness :
    (0 : ℕ) < 1 * 1 * 256 ∧ 32 * (0 / (1 * 1 * 32)) + 0 % 32 < 255 ∧
    (spec_recombine (ch_reshape (ch_reorder xC6 1) 1 80).1
        (ch_reshape (ch_reorder xC6 1) 1 80).2 1 80).getD 0 0 = xC6.getD 0 0 :=
  ⟨by norm_num, by norm_num, claim6_thm xC6 1 0 (by norm_num) (by norm_num)⟩

end YoloZynq

